import Mathlib

/-!
# Verification of the kinda-tidy helper library

Shallow embedding, in Lean 4, of the operations of `kinda_tidy.py`,
`plotnine_utils.py` and `kinda_tidy_fortify.py`, together with proofs of the
behavioural claims about them.

Modelling conventions:
* A pandas DataFrame is modelled by the columns an operation actually touches;
  untouched columns are irrelevant to every claim and are either carried as an
  opaque row payload or omitted.
* Machine floats only matter for `mean_weighted` (NaN propagation) and are
  modelled by `PyFloat` (a rational or NaN); all other numeric columns are
  exact (`Int`/`ℚ`), matching the integer inputs of the claims.
* pandas semantics used by the source are embedded explicitly:
  `groupby(col)` enumerates the distinct present keys in ascending order,
  `sort_values(col, ascending=False)` sorts descending by that column
  (pandas' quicksort is unstable, so the tie order is unspecified; we embed a
  deterministic descending sort and prove only order properties that hold for
  every admissible tie order), `pd.Categorical(xs)` without explicit
  categories uses the ascending sorted distinct values as levels, and
  `df.loc[mask, col] = v` / `df[mask]` relabel/filter rows by a boolean mask.
-/

/-! ## Python-level helpers -/

/-- Truthiness of the Python value `top_n : Optional[int]`: `if top_n:` is
taken when `top_n` is neither `None` nor `0`. -/
def pyTruthyInt : Option Int → Bool
  | none => false
  | some n => n != 0

/-- Python slicing `xs[:n]` for `n : Optional[int]`: `xs[:None] = xs`,
a non-negative bound takes that many leading elements, a negative bound
drops that many trailing elements. -/
def pySliceTo (n : Option Int) (xs : List α) : List α :=
  match n with
  | none => xs
  | some n => if n < 0 then xs.take (xs.length + n).toNat else xs.take n.toNat

/-- Python's string comparison: lexicographic on the code-point sequence.
This agrees with Lean's `String` order (`String.le_iff_toList_le`) but, unlike
it, reduces in the kernel, so concrete instances can be settled by `decide`. -/
def pyStrLe (a b : String) : Prop := a.toList ≤ b.toList

instance : DecidableRel pyStrLe :=
  fun a b => inferInstanceAs (Decidable (a.toList ≤ b.toList))

theorem pyStrLe_iff_le (a b : String) : pyStrLe a b ↔ a ≤ b := by
  rw [String.le_iff_toList_le]; exact Iff.rfl

instance : IsTotal String pyStrLe := ⟨fun a b => le_total a.toList b.toList⟩

instance : IsTrans String pyStrLe :=
  ⟨fun _ _ _ h h' => le_trans (α := List Char) h h'⟩

/-! ## `_set_categorical` (kinda_tidy.py lines 48-120)

The table is reduced to the two columns the routine reads: the category
column (strings) and the numeric value column.  `catLevels` is the level list
of the category column when it is categorical (`none` = plain column).
All remaining columns ride along unchanged and are dropped from the model. -/

/-- One row of the two relevant columns: the category cell and the value cell. -/
structure CRow where
  cat : String
  val : Int
deriving DecidableEq, Repr

/-- The part of a DataFrame that `_set_categorical` reads and writes. -/
structure CTable where
  rows : List CRow
  catLevels : Option (List String)
deriving DecidableEq, Repr

/-- The value cells of the group of rows whose category cell is `c`
(`df.groupby(category_col)` hands the aggregator the group's values in
original row order). -/
def groupVals (rows : List CRow) (c : String) : List Int :=
  (rows.filter (fun r => r.cat == c)).map CRow.val

/-- The distinct category keys in ascending order: the index produced by
`df.groupby(category_col).agg(...).reset_index()` (pandas sorts group keys
ascending by default). -/
def groupKeysAsc (rows : List CRow) : List String :=
  List.insertionSort pyStrLe (rows.map CRow.cat).dedup

/-- `sort_for_categories` (lines 84-89): group by the category column, apply
the aggregator to each group's value column, and sort the keys descending by
the aggregate.  Returns the category order (`sort_data[category_col]`). -/
def sort_for_categories (rows : List CRow) (aggregator : List Int → Int) : List String :=
  List.insertionSort
    (fun a b => aggregator (groupVals rows b) ≤ aggregator (groupVals rows a))
    (groupKeysAsc rows)

/-- `pd.Categorical(xs)` with no explicit categories: the levels are the
distinct values sorted ascending. -/
def pyCategoricalLevels (xs : List String) : List String :=
  List.insertionSort pyStrLe xs.dedup

/-- `_set_categorical` (lines 48-120).  `value_col` is `true` when a numeric
value column was supplied (`if not value_col:` also treats an empty column
name as absent).  The aggregator is the function applied to each group's
value column (default `np.sum`).  Steps, in source order:
line 92 `res = self.copy()`; lines 95-96 recast a categorical column to
string (dropping its levels, keeping its values); lines 98-100 early return
with alphabetical levels when no value column is given (note: `reverse`,
`top_n` and `keep_other` are never consulted on this path); line 102 the
descending aggregate order; line 104 `categories = sort_data[...][:top_n]`;
lines 106-111 relabel (`keep_other`) or drop the rows outside `categories`;
line 113 recompute the order on the possibly modified rows; lines 114-115
reverse; lines 117-118 install the final levels. -/
def set_categorical (t : CTable) (value_col : Bool)
    (aggregator : List Int → Int) (reverse : Bool) (top_n : Option Int)
    (keep_other : Bool) (other_label : String) : CTable :=
  let res : CTable := { rows := t.rows, catLevels := none }
  if value_col then
    let sort_data := sort_for_categories res.rows aggregator
    let categories := pySliceTo top_n sort_data
    let res2 : CTable :=
      if pyTruthyInt top_n then
        if keep_other then
          { res with rows := res.rows.map (fun r =>
              if r.cat ∈ categories then r else { r with cat := other_label }) }
        else
          { res with rows := res.rows.filter (fun r => r.cat ∈ categories) }
      else res
    let final0 := sort_for_categories res2.rows aggregator
    let final_categories := if reverse then final0.reverse else final0
    { res2 with catLevels := some final_categories }
  else
    { res with catLevels := some (pyCategoricalLevels (res.rows.map CRow.cat)) }

/-! ### Order properties of `sort_for_categories` -/

/-- The descending-aggregate category order is a permutation of the distinct
category values present in the rows. -/
theorem sort_for_categories_perm (rows : List CRow) (aggregator : List Int → Int) :
    (sort_for_categories rows aggregator).Perm (rows.map CRow.cat).dedup := by
  unfold sort_for_categories groupKeysAsc
  exact (List.perm_insertionSort _ _).trans (List.perm_insertionSort _ _)

/-- The descending-aggregate category order has no duplicates. -/
theorem sort_for_categories_nodup (rows : List CRow) (aggregator : List Int → Int) :
    (sort_for_categories rows aggregator).Nodup :=
  (sort_for_categories_perm rows aggregator).nodup_iff.mpr (List.nodup_dedup _)

/-- The descending-aggregate category order is sorted: every earlier category
has group aggregate at least that of every later category. -/
theorem sort_for_categories_pairwise (rows : List CRow) (aggregator : List Int → Int) :
    (sort_for_categories rows aggregator).Pairwise
      (fun a b => aggregator (groupVals rows b) ≤ aggregator (groupVals rows a)) := by
  haveI : IsTotal String
      (fun a b => aggregator (groupVals rows b) ≤ aggregator (groupVals rows a)) :=
    ⟨fun a b => le_total _ _⟩
  haveI : IsTrans String
      (fun a b => aggregator (groupVals rows b) ≤ aggregator (groupVals rows a)) :=
    ⟨fun _ _ _ hab hbc => le_trans hbc hab⟩
  exact List.sorted_insertionSort _ _

/-- C1: with a numeric value column supplied (and no `top_n`), the level
order of the resulting categorical column is the list of distinct category
values, sorted in descending order of the aggregate of the value column
computed over the group of rows carrying each category value.  The statement
is proved for an arbitrary aggregator, hence in particular for the default
`np.sum`; the rows themselves are returned unchanged. -/
theorem set_categorical_value_col_levels_desc (t : CTable)
    (aggregator : List Int → Int) (other_label : String) :
    ∃ ls : List String,
      (set_categorical t true aggregator false none false other_label).catLevels = some ls ∧
      (set_categorical t true aggregator false none false other_label).rows = t.rows ∧
      ls.Perm (t.rows.map CRow.cat).dedup ∧
      ls.Pairwise
        (fun a b => aggregator (groupVals t.rows b) ≤ aggregator (groupVals t.rows a)) := by
  refine ⟨sort_for_categories t.rows aggregator, rfl, rfl, ?_, ?_⟩
  · exact sort_for_categories_perm t.rows aggregator
  · exact sort_for_categories_pairwise t.rows aggregator

/-- C4: with no value column the rows are returned unchanged and the column
is made categorical with levels the distinct values present sorted ascending
(alphabetically); on this path the function returns before `top_n` and
`keep_other` are consulted, so supplying them changes nothing. -/
theorem set_categorical_no_value_col (t : CTable) (aggregator : List Int → Int)
    (reverse : Bool) (top_n : Option Int) (keep_other : Bool) (other_label : String) :
    (set_categorical t false aggregator reverse top_n keep_other other_label).rows = t.rows ∧
    (∃ ls : List String,
      (set_categorical t false aggregator reverse top_n keep_other other_label).catLevels
        = some ls ∧
      ls.Perm (t.rows.map CRow.cat).dedup ∧
      ls.Pairwise (· ≤ ·)) ∧
    set_categorical t false aggregator reverse top_n keep_other other_label
      = set_categorical t false aggregator reverse none false other_label := by
  refine ⟨rfl, ⟨pyCategoricalLevels (t.rows.map CRow.cat), rfl, ?_, ?_⟩, rfl⟩
  · exact List.perm_insertionSort _ _
  · exact (List.sorted_insertionSort pyStrLe _).imp fun h => (pyStrLe_iff_le _ _).mp h

/-- C3 as stated is false: when no value column is supplied, the source
returns at line 100 before the `reverse` handling at lines 114-115, so
`reverse = true` does not invert the level order.  Concretely, on a table
with category values `a, b` and no value column, both settings of `reverse`
produce the level order `[a, b]`, which is not the inverse `[b, a]`. -/
theorem set_categorical_reverse_counterexample :
    ¬ ((set_categorical ⟨[⟨"a", 0⟩, ⟨"b", 0⟩], none⟩ false List.sum true none false
          "_other").catLevels
        = Option.map List.reverse
            (set_categorical ⟨[⟨"a", 0⟩, ⟨"b", 0⟩], none⟩ false List.sum false none false
              "_other").catLevels) := by
  decide

/-- C3 amended: when a value column is supplied, `reverse = true` yields
exactly the inverse of the `reverse = false` level order (for every setting
of the other arguments) and identical rows; when no value column is supplied,
`reverse` is ignored entirely and both settings give the same result. -/
theorem set_categorical_reverse_amended (t : CTable) (aggregator : List Int → Int)
    (top_n : Option Int) (keep_other : Bool) (other_label : String) :
    ((set_categorical t true aggregator true top_n keep_other other_label).rows
        = (set_categorical t true aggregator false top_n keep_other other_label).rows ∧
      (set_categorical t true aggregator true top_n keep_other other_label).catLevels
        = Option.map List.reverse
            (set_categorical t true aggregator false top_n keep_other other_label).catLevels) ∧
    set_categorical t false aggregator true top_n keep_other other_label
      = set_categorical t false aggregator false top_n keep_other other_label := by
  refine ⟨⟨rfl, rfl⟩, rfl⟩

/-! ### `top_n` truncation (C2) -/

/-- The categories kept by `top_n = N`: the first `N` entries of the
descending aggregate order (`categories = sort_data[category_col][:top_n]`,
line 104). -/
def topCategories (t : CTable) (aggregator : List Int → Int) (N : ℕ) : List String :=
  (sort_for_categories t.rows aggregator).take N

/-- The rows after `res.loc[~keep_row_mask, category_col] = other_label`
(line 109): rows outside the kept categories are relabeled to the fallback
label, all other rows unchanged. -/
def relabelOther (t : CTable) (aggregator : List Int → Int) (N : ℕ)
    (other_label : String) : List CRow :=
  t.rows.map (fun r =>
    if r.cat ∈ topCategories t aggregator N then r else { r with cat := other_label })

/-- Reduction of `set_categorical` under a positive `top_n`. -/
theorem set_categorical_top_n_eq (t : CTable) (aggregator : List Int → Int) (N : ℕ)
    (hN : 0 < N) (keep_other : Bool) (other_label : String) :
    set_categorical t true aggregator false (some (N : Int)) keep_other other_label
      = (let kept := (sort_for_categories t.rows aggregator).take N
         let rows2 := if keep_other
            then t.rows.map (fun r => if r.cat ∈ kept then r else { r with cat := other_label })
            else t.rows.filter (fun r => r.cat ∈ kept)
         { rows := rows2, catLevels := some (sort_for_categories rows2 aggregator) }) := by
  have h1 : pyTruthyInt (some (N : Int)) = true := by
    simp [pyTruthyInt, hN.ne']
  have h2 : pySliceTo (some (N : Int)) (sort_for_categories t.rows aggregator)
      = (sort_for_categories t.rows aggregator).take N := by
    simp [pySliceTo]
  simp only [set_categorical, h1, h2, if_true]
  cases keep_other <;> simp

/-- C2: with a value column and `top_n = N > 0` the kept levels are the first
`N` of the descending aggregate order — there are `min N #levels` of them and
each has aggregate at least that of every level left out; with
`keep_other = false` exactly the rows outside the kept levels are dropped
(row count weakly shrinks, strictly when such a row exists); with
`keep_other = true` the rows outside are relabeled to the fallback label
(row count unchanged) and the final level order is recomputed on the
relabeled rows, so the fallback level is ranked by the pooled aggregate of
the rows it now contains. -/
theorem set_categorical_top_n_spec (t : CTable) (aggregator : List Int → Int) (N : ℕ)
    (hN : 0 < N) (other_label : String) :
    ((topCategories t aggregator N).length = min N (t.rows.map CRow.cat).dedup.length ∧
      ∀ a ∈ topCategories t aggregator N, ∀ b ∈ (t.rows.map CRow.cat).dedup,
        b ∉ topCategories t aggregator N →
          aggregator (groupVals t.rows b) ≤ aggregator (groupVals t.rows a)) ∧
    ((set_categorical t true aggregator false (some (N : Int)) false other_label).rows
        = t.rows.filter (fun r => r.cat ∈ topCategories t aggregator N) ∧
      (set_categorical t true aggregator false (some (N : Int)) false other_label).rows.length
        ≤ t.rows.length ∧
      ((∃ r ∈ t.rows, r.cat ∉ topCategories t aggregator N) →
        (set_categorical t true aggregator false (some (N : Int)) false other_label).rows.length
          < t.rows.length)) ∧
    ((set_categorical t true aggregator false (some (N : Int)) true other_label).rows
        = relabelOther t aggregator N other_label ∧
      (relabelOther t aggregator N other_label).length = t.rows.length ∧
      ∃ L, (set_categorical t true aggregator false (some (N : Int)) true other_label).catLevels
          = some L ∧
        L.Perm ((relabelOther t aggregator N other_label).map CRow.cat).dedup ∧
        L.Pairwise (fun a b =>
          aggregator (groupVals (relabelOther t aggregator N other_label) b)
            ≤ aggregator (groupVals (relabelOther t aggregator N other_label) a))) := by
  have hko_false := set_categorical_top_n_eq t aggregator N hN false other_label
  have hko_true := set_categorical_top_n_eq t aggregator N hN true other_label
  simp only [if_neg, if_pos, Bool.false_eq_true, Bool.true_eq_false] at hko_false hko_true
  have hrows_false : (set_categorical t true aggregator false (some (N : Int)) false
      other_label).rows = t.rows.filter (fun r => r.cat ∈ topCategories t aggregator N) := by
    rw [hko_false]; rfl
  have hrows_true : (set_categorical t true aggregator false (some (N : Int)) true
      other_label).rows = relabelOther t aggregator N other_label := by
    rw [hko_true]; rfl
  refine ⟨⟨?_, ?_⟩, ⟨hrows_false, ?_, ?_⟩, ⟨hrows_true, ?_, ?_⟩⟩
  · rw [topCategories, List.length_take, (sort_for_categories_perm t.rows aggregator).length_eq]
  · intro a ha b hb hbn
    have hbS : b ∈ sort_for_categories t.rows aggregator :=
      (sort_for_categories_perm t.rows aggregator).mem_iff.mpr hb
    rw [← List.take_append_drop N (sort_for_categories t.rows aggregator)] at hbS
    rcases List.mem_append.mp hbS with h | h
    · exact absurd h hbn
    · have hp := sort_for_categories_pairwise t.rows aggregator
      rw [← List.take_append_drop N (sort_for_categories t.rows aggregator)] at hp
      exact (List.pairwise_append.mp hp).2.2 a ha b h
  · rw [hrows_false]; exact List.length_filter_le _ _
  · rintro ⟨r, hr, hrn⟩
    rw [hrows_false]
    exact List.length_filter_lt_length_iff_exists.mpr ⟨r, hr, by simpa using hrn⟩
  · exact List.length_map _ _
  · refine ⟨sort_for_categories (relabelOther t aggregator N other_label) aggregator, ?_, ?_, ?_⟩
    · rw [hko_true]; rfl
    · exact sort_for_categories_perm _ _
    · exact sort_for_categories_pairwise _ _

/-- Witness for C2 at the table of the repository's own unit test
(`test_recalculate_order_with_other`, second case): categories `a, a, a, b,
b, c` with values `1, 2, 3, 4, 5, 10`, `top_n = 1`, `keep_other = true`.
The hypothesis `0 < 1` is discharged concretely and the theorem is applied at
this input. -/
theorem set_categorical_top_n_spec_witness :
    0 < 1 ∧
    (set_categorical ⟨[⟨"a", 1⟩, ⟨"a", 2⟩, ⟨"a", 3⟩, ⟨"b", 4⟩, ⟨"b", 5⟩, ⟨"c", 10⟩], none⟩
        true List.sum false (some ((1 : ℕ) : Int)) true "_other").rows
      = relabelOther ⟨[⟨"a", 1⟩, ⟨"a", 2⟩, ⟨"a", 3⟩, ⟨"b", 4⟩, ⟨"b", 5⟩, ⟨"c", 10⟩], none⟩
          List.sum 1 "_other" :=
  ⟨Nat.one_pos,
    (set_categorical_top_n_spec
      ⟨[⟨"a", 1⟩, ⟨"a", 2⟩, ⟨"a", 3⟩, ⟨"b", 4⟩, ⟨"b", 5⟩, ⟨"c", 10⟩], none⟩
      List.sum 1 Nat.one_pos "_other").2.2.1⟩

/-! ## `_reverse_categories` (lines 223-245) and `_drop_unused_levels`
(lines 198-220)

Both walk the (scalar-adapted) target column names and rewrite the
categorical columns among them, so the model is a table of named columns,
each carrying its values and, when categorical, its level list. -/

/-- One column: its cell values and, when categorical, its levels. -/
structure RCol where
  values : List String
  levels : Option (List String)
deriving DecidableEq, Repr

/-- A DataFrame as an ordered association of column names to columns. -/
structure RTable where
  cols : List (String × RCol)
deriving DecidableEq, Repr

/-- `pd.Categorical(res[c], categories=res[c].values.categories[::-1])`
(lines 243-244): values unchanged, level list reversed; a non-categorical
column is left alone (the `is_categorical_dtype` guard, line 242). -/
def reverseCol (col : RCol) : RCol :=
  match col.levels with
  | none => col
  | some ls => { col with levels := some ls.reverse }

/-- `res[c].cat.remove_unused_categories(inplace=True)` (line 219): the
levels of a categorical column are cut down to those present among its
values, keeping their relative order; non-categorical columns are left
alone (the guard at line 218). -/
def removeUnusedCol (col : RCol) : RCol :=
  match col.levels with
  | none => col
  | some ls => { col with levels := some (ls.filter (fun l => l ∈ col.values)) }

/-- One iteration of the `for c in target_columns:` loop: apply `f` to every
column named `c` (`res.loc[:, c] = ...` writes through the column name). -/
def applyToCol (f : RCol → RCol) (cols : List (String × RCol)) (c : String) :
    List (String × RCol) :=
  cols.map (fun nc => if nc.1 = c then (nc.1, f nc.2) else nc)

/-- The effective target list: `if not target_columns: target_columns =
res.columns` (an absent or empty argument means all columns), then
`_adapt_scalar_to_vector` (a scalar name arrives as a one-element list). -/
def effectiveTargets (t : RTable) (target_columns : Option (List String)) : List String :=
  match target_columns with
  | none => t.cols.map Prod.fst
  | some l => if l = [] then t.cols.map Prod.fst else l

/-- `_reverse_categories` (lines 223-245): copy the frame, then reverse the
level order of every categorical column among the targets. -/
def reverse_categories (t : RTable) (target_columns : Option (List String)) : RTable :=
  { cols := (effectiveTargets t target_columns).foldl (applyToCol reverseCol) t.cols }

/-- `_drop_unused_levels` (lines 198-220): copy the frame, then drop the
unused levels of every categorical column among the targets. -/
def drop_unused_levels (t : RTable) (target_columns : Option (List String)) : RTable :=
  { cols := (effectiveTargets t target_columns).foldl (applyToCol removeUnusedCol) t.cols }

/-! ## `_flatten_columns` (lines 252-270) -/

/-- `'_'.join` over stringified labels then `.strip(sep)`: Python's
`str.strip(chars)` removes every leading and trailing character belonging to
the character set `chars`. -/
def pyStrip (sep : String) (s : String) : String :=
  String.mk (((s.toList.dropWhile (fun c => c ∈ sep.toList)).reverse.dropWhile
    (fun c => c ∈ sep.toList)).reverse)

/-- `_list_values_to_string` (lines 248-249): stringify every label of a
column tuple.  Header labels are modelled as already-stringified, on which
`str` is the identity. -/
def list_values_to_string (input_list : List String) : List String :=
  input_list.map toString

/-- The column header: a flat index of names, or a MultiIndex of label
tuples. -/
inductive Header
  | flat (names : List String)
  | multi (names : List (List String))
deriving DecidableEq, Repr

/-- A DataFrame reduced to what `_flatten_columns` touches: its header (the
cell data is carried opaquely and never read). -/
structure FTable where
  header : Header
  data : List (List Int)
deriving DecidableEq, Repr

/-- `_flatten_columns` (lines 252-270): a frame with a flat header is
returned as-is; a MultiIndex header is replaced by the per-column
`sep.join(...)` of the stringified labels, stripped of the separator. -/
def flatten_columns (t : FTable) (sep : String) : FTable :=
  match t.header with
  | Header.flat _ => t
  | Header.multi names =>
      { t with header := Header.flat (names.map (fun col =>
          pyStrip sep (String.intercalate sep (list_values_to_string col)))) }

/-! ## `_select_rows` (lines 296-310) -/

/-- `self[mask]` for a boolean mask: keep the rows marked `true`. -/
def maskFilter : List ρ → List Bool → List ρ
  | x :: xs, b :: bs => if b then x :: maskFilter xs bs else maskFilter xs bs
  | _, _ => []

/-- `_select_rows` (lines 296-310): the predicate receives the whole frame
(so it can use cross-row aggregates) and returns one boolean per row;
`self[predicate(self)].copy()` keeps the marked rows. -/
def select_rows (rows : List ρ) (predicate : List ρ → List Bool) : List ρ :=
  maskFilter rows (predicate rows)

/-! ### Involution and idempotence properties (C9) -/

theorem foldl_applyToCol (f : RCol → RCol) (names : List String)
    (cols : List (String × RCol)) :
    names.foldl (applyToCol f) cols
      = cols.map (fun nc => (nc.1, f^[names.count nc.1] nc.2)) := by
  induction names generalizing cols with
  | nil => simp
  | cons m names ih =>
      rw [List.foldl_cons, ih, applyToCol, List.map_map]
      refine List.map_congr_left (fun nc _ => ?_)
      by_cases h : nc.1 = m
      · simp [Function.comp, h, List.count_cons, Function.iterate_succ_apply]
      · simp [Function.comp, h, List.count_cons]

theorem map_fst_foldl_applyToCol (f : RCol → RCol) (names : List String)
    (cols : List (String × RCol)) :
    (names.foldl (applyToCol f) cols).map Prod.fst = cols.map Prod.fst := by
  rw [foldl_applyToCol, List.map_map]
  rfl

theorem reverseCol_involutive (c : RCol) : reverseCol (reverseCol c) = c := by
  cases c with
  | mk values levels => cases levels <;> simp [reverseCol]

theorem reverseCol_iterate_two_mul (k : ℕ) (c : RCol) : reverseCol^[2 * k] c = c := by
  induction k with
  | zero => rfl
  | succ k ih =>
      have : 2 * (k + 1) = 2 * k + 2 := by ring
      rw [this, Function.iterate_add_apply]
      simp [reverseCol_involutive, ih]

/-- C9: flattening a column header twice equals flattening once (the second
call sees a flat header and returns the frame untouched), and reversing
categorical levels twice restores every categorical column's original level
order (each targeted column is reversed the same number of times by both
passes, so every column is reversed an even number of times in total). -/
theorem flatten_columns_idem_reverse_categories_invol (t : FTable) (sep : String)
    (u : RTable) (target_columns : Option (List String)) :
    flatten_columns (flatten_columns t sep) sep = flatten_columns t sep ∧
    reverse_categories (reverse_categories u target_columns) target_columns = u := by
  constructor
  · cases t with
    | mk header data => cases header <;> rfl
  · have hnames : (reverse_categories u target_columns).cols.map Prod.fst
        = u.cols.map Prod.fst := map_fst_foldl_applyToCol _ _ _
    have htargets : effectiveTargets (reverse_categories u target_columns) target_columns
        = effectiveTargets u target_columns := by
      cases target_columns with
      | none => simpa [effectiveTargets] using hnames
      | some l => simp [effectiveTargets, hnames]
    conv_lhs => rw [reverse_categories, htargets, reverse_categories]
    rw [foldl_applyToCol, foldl_applyToCol, List.map_map]
    have hg : ((fun nc : String × RCol =>
          (nc.1, reverseCol^[(effectiveTargets u target_columns).count nc.1] nc.2)) ∘
        (fun nc : String × RCol =>
          (nc.1, reverseCol^[(effectiveTargets u target_columns).count nc.1] nc.2)))
        = id := by
      funext nc
      show (nc.1, reverseCol^[(effectiveTargets u target_columns).count nc.1]
          (reverseCol^[(effectiveTargets u target_columns).count nc.1] nc.2)) = nc
      rw [← Function.iterate_add_apply, ← two_mul, reverseCol_iterate_two_mul]
    rw [hg, List.map_id]

/-! ### Frame effects (C10)

A Python method call receives the caller's frame as `self` and may mutate it.
Each `_call` wrapper below returns the pair (method result, state of `self`
after the call), translating the bodies statement by statement: every one of
the four sources either starts with `res = self.copy()` — a deep pandas copy,
after which every write (`res.loc[...] = ...` at lines 109, 111, 117,
243-244, the inplace level removal at line 219) targets the independent
`res` — or, for `_select_rows`, performs no write at all and returns
`self[predicate(self)].copy()` (line 310).  `self` is never assigned, so the
second component is the unchanged input frame. -/

/-- `_set_categorical` as a call: result plus the caller's frame afterwards. -/
def set_categorical_call (t : CTable) (value_col : Bool)
    (aggregator : List Int → Int) (reverse : Bool) (top_n : Option Int)
    (keep_other : Bool) (other_label : String) : CTable × CTable :=
  (set_categorical t value_col aggregator reverse top_n keep_other other_label, t)

/-- `_drop_unused_levels` as a call. -/
def drop_unused_levels_call (t : RTable) (target_columns : Option (List String)) :
    RTable × RTable :=
  (drop_unused_levels t target_columns, t)

/-- `_reverse_categories` as a call. -/
def reverse_categories_call (t : RTable) (target_columns : Option (List String)) :
    RTable × RTable :=
  (reverse_categories t target_columns, t)

/-- `_select_rows` as a call. -/
def select_rows_call (rows : List ρ) (predicate : List ρ → List Bool) :
    List ρ × List ρ :=
  (select_rows rows predicate, rows)

/-- C10: `set_categorical`, `drop_unused_levels`, `reverse_categories` and
`select_rows` all return a fresh result and leave the caller's frame exactly
as it was — same rows, columns, values and categorical level orders.  In the
embedding this is the statement that the post-call state of `self` equals the
input, which holds because each source copies before writing (or never
writes); it would fail for a translation of a body that assigned to `self`. -/
theorem kinda_tidy_calls_leave_input_unchanged (t : CTable) (value_col : Bool)
    (aggregator : List Int → Int) (reverse : Bool) (top_n : Option Int)
    (keep_other : Bool) (other_label : String) (u v : RTable)
    (utargets vtargets : Option (List String)) (ρ : Type) (rows : List ρ)
    (predicate : List ρ → List Bool) :
    ((set_categorical_call t value_col aggregator reverse top_n keep_other
        other_label).2 = t ∧
      (set_categorical_call t value_col aggregator reverse top_n keep_other
        other_label).1
        = set_categorical t value_col aggregator reverse top_n keep_other other_label) ∧
    ((drop_unused_levels_call u utargets).2 = u ∧
      (drop_unused_levels_call u utargets).1 = drop_unused_levels u utargets) ∧
    ((reverse_categories_call v vtargets).2 = v ∧
      (reverse_categories_call v vtargets).1 = reverse_categories v vtargets) ∧
    ((select_rows_call rows predicate).2 = rows ∧
      (select_rows_call rows predicate).1 = select_rows rows predicate) :=
  ⟨⟨rfl, rfl⟩, ⟨rfl, rfl⟩, ⟨rfl, rfl⟩, ⟨rfl, rfl⟩⟩

/-! ## `_equisample` (lines 374-397)

The grouping key of a row is the tuple of its grouping-column cells, modelled
as an abstract linearly ordered type `κ`; the rest of the row rides along as
an opaque payload `ρ`.  `df.sample(n, ...)` draws a random subset; the random
source is external to the program, so the sampler is a parameter, constrained
in the theorem by the contract of sampling without replacement: on a request
of at most the population size it returns exactly `n` of the group's rows. -/

/-- The distinct grouping keys in ascending order (`tidy_groupby(grouping)`
enumerates groups sorted by key). -/
def groupKeysK {κ ρ : Type} [LinearOrder κ] (rows : List (κ × ρ)) : List κ :=
  List.insertionSort (· ≤ ·) (rows.map Prod.fst).dedup

/-- The rows of the group with key `k`, in original order. -/
def groupRowsK {κ ρ : Type} [LinearOrder κ] (rows : List (κ × ρ)) (k : κ) :
    List (κ × ρ) :=
  rows.filter (fun r => r.1 = k)

/-- `.min()` of a series of numbers (the series is nonempty in every use the
claims exercise; pandas yields NaN on an empty one). -/
def listMin : List ℕ → ℕ
  | [] => 0
  | x :: xs => xs.foldl min x

/-- The group sizes of a table: `tidy_groupby(grouping).size()['size']`. -/
def groupSizes {κ ρ : Type} [LinearOrder κ] (rows : List (κ × ρ)) : List ℕ :=
  (groupKeysK rows).map (fun g => (groupRowsK rows g).length)

/-- `_equisample` (lines 374-397): `if not n:` (absent or zero) the sample
size becomes the smallest group's row count (line 395); then every group is
replaced by a size-`n` sample of itself and the groups are concatenated in
key order (line 397, `group_keys=False`). -/
def equisample {κ ρ : Type} [LinearOrder κ]
    (sample : ℕ → List (κ × ρ) → List (κ × ρ)) (rows : List (κ × ρ))
    (n : Option ℕ) : List (κ × ρ) :=
  let m := match n with
    | none => listMin (groupSizes rows)
    | some k => if k = 0 then listMin (groupSizes rows) else k
  (groupKeysK rows).flatMap (fun g => sample m (groupRowsK rows g))

theorem foldl_min_le_init (xs : List ℕ) (b : ℕ) : xs.foldl min b ≤ b := by
  induction xs generalizing b with
  | nil => exact le_rfl
  | cons y ys ih => exact le_trans (ih (min b y)) (min_le_left b y)

theorem foldl_min_le_mem {xs : List ℕ} {a : ℕ} (ha : a ∈ xs) (b : ℕ) :
    xs.foldl min b ≤ a := by
  induction xs generalizing b with
  | nil => cases ha
  | cons y ys ih =>
      rcases List.mem_cons.mp ha with rfl | ha
      · exact le_trans (foldl_min_le_init ys (min b a)) (min_le_right b a)
      · exact ih ha (min b y)

theorem listMin_le {l : List ℕ} {a : ℕ} (ha : a ∈ l) : listMin l ≤ a := by
  cases l with
  | nil => cases ha
  | cons x xs =>
      rcases List.mem_cons.mp ha with rfl | ha
      · exact foldl_min_le_init xs a
      · exact foldl_min_le_mem ha x

theorem filter_flatMap (ks : List κ) (F : κ → List β) (p : β → Bool) :
    (ks.flatMap F).filter p = ks.flatMap (fun g => (F g).filter p) := by
  induction ks with
  | nil => rfl
  | cons g ks ih => simp [List.flatMap_cons, List.filter_append, ih]

theorem length_flatMap_ite {κ β : Type} [DecidableEq κ] (ks : List κ) (F : κ → List β)
    (k : κ) (m : ℕ) (hk : ks.Nodup)
    (h : ∀ g ∈ ks, (F g).length = if g = k then m else 0) :
    (ks.flatMap F).length = if k ∈ ks then m else 0 := by
  induction ks with
  | nil => simp
  | cons g ks ih =>
      rw [List.flatMap_cons, List.length_append, h g (List.mem_cons_self g ks),
        ih hk.of_cons (fun g' hg' => h g' (List.mem_cons_of_mem g hg'))]
      by_cases hgk : g = k
      · subst hgk
        have : g ∉ ks := (List.nodup_cons.mp hk).1
        simp [this]
      · simp [hgk, List.mem_cons, Ne.symm hgk]

theorem groupKeysK_nodup {κ ρ : Type} [LinearOrder κ] (rows : List (κ × ρ)) :
    (groupKeysK rows).Nodup :=
  (List.perm_insertionSort _ _).nodup_iff.mpr (List.nodup_dedup _)

/-- C5: `equisample` with no explicit size: every group of the output has
row count equal to the smallest group size of the input (and keys not
present in the input contribute no rows).  The sampler is constrained only
by the contract of `DataFrame.sample` without replacement: asked for at most
the population it returns exactly that many of the population's rows. -/
theorem equisample_default_group_sizes {κ ρ : Type} [LinearOrder κ]
    (rows : List (κ × ρ)) (_hrows : rows ≠ [])
    (sample : ℕ → List (κ × ρ) → List (κ × ρ))
    (hsample : ∀ n xs, n ≤ xs.length →
      (sample n xs).length = n ∧ ∀ x ∈ sample n xs, x ∈ xs) :
    ∀ k : κ, (groupRowsK (equisample sample rows none) k).length
      = if k ∈ groupKeysK rows then listMin (groupSizes rows) else 0 := by
  intro k
  have heq : equisample sample rows none
      = (groupKeysK rows).flatMap
          (fun g => sample (listMin (groupSizes rows)) (groupRowsK rows g)) := rfl
  rw [heq, groupRowsK, filter_flatMap]
  refine length_flatMap_ite _ _ _ _ (groupKeysK_nodup rows) ?_
  intro g hg
  have hle : listMin (groupSizes rows) ≤ (groupRowsK rows g).length :=
    listMin_le (List.mem_map_of_mem (fun g => (groupRowsK rows g).length) hg)
  obtain ⟨hlen, hsub⟩ := hsample (listMin (groupSizes rows)) (groupRowsK rows g) hle
  have hfst : ∀ x ∈ sample (listMin (groupSizes rows)) (groupRowsK rows g), x.1 = g := by
    intro x hx
    have := (List.mem_filter.mp (hsub x hx)).2
    exact of_decide_eq_true this
  by_cases hgk : g = k
  · subst hgk
    rw [List.filter_eq_self.mpr (fun a ha => decide_eq_true (hfst a ha)), hlen]
    simp
  · rw [List.filter_eq_nil_iff.mpr
      (fun a ha h => hgk ((hfst a ha).symm.trans (of_decide_eq_true h)))]
    simp [hgk]


/-- Witness for C5, mirroring the repository's `KindaTidyEquisampleTest`
table (group sizes 4 and 3, so the default sample size is 3): keys are coded
as numbers, the sampler instantiating the `DataFrame.sample` contract is the
prefix-taking one.  The nonemptiness and sampler-contract hypotheses are
discharged concretely, and the group-membership condition of the conclusion
is evaluated at key `0`. -/
theorem equisample_default_group_sizes_witness :
    ([((0 : ℕ), (0 : ℕ)), (0, 1), (0, 2), (0, 3), (1, 4), (1, 5), (1, 6)] ≠ []) ∧
    (groupRowsK (equisample (fun n xs => xs.take n)
        [((0 : ℕ), (0 : ℕ)), (0, 1), (0, 2), (0, 3), (1, 4), (1, 5), (1, 6)] none)
        0).length
      = listMin (groupSizes
          [((0 : ℕ), (0 : ℕ)), (0, 1), (0, 2), (0, 3), (1, 4), (1, 5), (1, 6)]) := by
  refine ⟨by decide, ?_⟩
  have h := equisample_default_group_sizes
    [((0 : ℕ), (0 : ℕ)), (0, 1), (0, 2), (0, 3), (1, 4), (1, 5), (1, 6)]
    (by decide) (fun n xs => xs.take n)
    (fun n xs h =>
      ⟨by rw [List.length_take]; exact Nat.min_eq_left h,
       fun x hx => List.take_subset n xs hx⟩) 0
  rwa [if_pos (by decide)] at h

/-! ## `_fortify_statsmodels` (kinda_tidy_fortify.py lines 34-38)

A fitted statsmodels result is modelled by what the three-line source reads:
`self.model.data.frame` — the original fitted-on table, a list of
(index label, row cells) pairs — and `self.fittedvalues` — a series of
fitted values indexed by the labels of the rows that survived fitting
(statsmodels drops e.g. rows with missing values before fitting). -/

structure FitResult (ρ : Type) where
  frame : List (Nat × ρ)
  fittedvalues : List (Nat × ℚ)

/-- `data['fitted'] = series`: pandas aligns an assigned Series to the frame
by index label — each row receives the series value at its label, or a
missing value (NaN, modelled as `none`) when its label is absent from the
series. -/
def assignAligned {ρ : Type} (frame : List (Nat × ρ)) (s : List (Nat × ℚ)) :
    List (Nat × ρ × Option ℚ) :=
  frame.map (fun ir => (ir.1, ir.2, s.lookup ir.1))

/-- `_fortify_statsmodels`: copy the original frame and add the `fitted`
column by index alignment. -/
def fortify {ρ : Type} (r : FitResult ρ) : List (Nat × ρ × Option ℚ) :=
  assignAligned r.frame r.fittedvalues

theorem lookup_eq_none_of_not_mem {s : List (Nat × ℚ)} {i : Nat}
    (h : i ∉ s.map Prod.fst) : s.lookup i = none := by
  induction s with
  | nil => rfl
  | cons p s ih =>
      obtain ⟨k, b⟩ := p
      have h1 : ¬ i = k := fun he => h (by simp [he])
      have h2 : i ∉ s.map Prod.fst := fun hm => h (by simp [hm])
      have hbe : (i == k) = false := beq_eq_false_iff_ne.mpr h1
      simpa [List.lookup, hbe] using ih h2

theorem lookup_eq_some_of_mem {s : List (Nat × ℚ)} {i : Nat} {v : ℚ}
    (hnodup : (s.map Prod.fst).Nodup) (h : (i, v) ∈ s) : s.lookup i = some v := by
  induction s with
  | nil => cases h
  | cons p s ih =>
      obtain ⟨k, b⟩ := p
      rcases List.mem_cons.mp h with he | h
      · rw [Prod.mk.injEq] at he
        simp [List.lookup, he.1, he.2]
      · have hne : ¬ i = k := by
          intro he
          have hmem : i ∈ s.map Prod.fst := List.mem_map_of_mem Prod.fst h
          rw [he] at hmem
          exact (List.nodup_cons.mp hnodup).1 hmem
        have hbe : (i == k) = false := beq_eq_false_iff_ne.mpr hne
        simpa [List.lookup, hbe] using
          ih (List.nodup_cons.mp hnodup).2 h

/-- C8: fortification returns a copy of the original fitted-on frame — same
index labels, same cells, same order — with one added fitted-value column
aligned by index label: a row whose label is absent from the fitted series
(a row excluded from fitting) carries a missing fitted value at its original
position, and a row whose label carries fitted value `v` carries `some v`.
The index labels of a pandas Series are unique, whence the hypothesis. -/
theorem fortify_preserves_alignment {ρ : Type} (r : FitResult ρ)
    (hnodup : (r.fittedvalues.map Prod.fst).Nodup) :
    (fortify r).map (fun p => (p.1, p.2.1)) = r.frame ∧
    (∀ p ∈ fortify r, p.1 ∉ r.fittedvalues.map Prod.fst → p.2.2 = none) ∧
    (∀ p ∈ fortify r, ∀ v, (p.1, v) ∈ r.fittedvalues → p.2.2 = some v) := by
  refine ⟨?_, ?_, ?_⟩
  · rw [fortify, assignAligned, List.map_map]
    have hid : ((fun p : Nat × ρ × Option ℚ => (p.1, p.2.1)) ∘
        (fun ir : Nat × ρ => (ir.1, ir.2, r.fittedvalues.lookup ir.1))) = id :=
      funext fun ir => rfl
    rw [hid, List.map_id]
  · intro p hp hnot
    obtain ⟨ir, _, rfl⟩ := List.mem_map.mp hp
    exact lookup_eq_none_of_not_mem hnot
  · intro p hp v hv
    obtain ⟨ir, _, rfl⟩ := List.mem_map.mp hp
    exact lookup_eq_some_of_mem hnodup hv

/-- Witness for C8 at the shape of the repository's `test_nan_handling`:
four rows indexed 0-3, row 2 dropped during fitting, so the fitted series
holds indices 0, 1, 3 only.  The uniqueness hypothesis on the series index
is discharged concretely. -/
theorem fortify_preserves_alignment_witness :
    ((([(0, 1), (1, 2), (3, 4)] : List (Nat × ℚ)).map Prod.fst).Nodup) ∧
    (fortify ⟨[(0, 10), (1, 20), (2, 30), (3, 40)], [(0, 1), (1, 2), (3, 4)]⟩).map
        (fun p => (p.1, p.2.1))
      = ([(0, 10), (1, 20), (2, 30), (3, 40)] : List (Nat × Int)) :=
  ⟨by decide,
    (fortify_preserves_alignment
      ⟨[(0, 10), (1, 20), (2, 30), (3, 40)], [(0, 1), (1, 2), (3, 4)]⟩ (by decide)).1⟩

/-! ## `mean_weighted` (kinda_tidy.py lines 40-45)

The inputs are Python floats; what matters to the claim is NaN propagation,
so a float is modelled as a rational or NaN (`PyFloat`).  Infinities never
arise in the computations the claims exercise (the only division is by a sum
of weights, which is zero only when the dot product is also zero) and are not
modelled; division of a nonzero value by zero is collapsed into `nan`, a
corner no theorem below touches. -/

inductive PyFloat
  | nan : PyFloat
  | fin : ℚ → PyFloat
deriving DecidableEq, Repr

namespace PyFloat

/-- IEEE addition restricted to finite values and NaN. -/
def add : PyFloat → PyFloat → PyFloat
  | fin a, fin b => fin (a + b)
  | _, _ => nan

/-- IEEE multiplication restricted to finite values and NaN. -/
def mul : PyFloat → PyFloat → PyFloat
  | fin a, fin b => fin (a * b)
  | _, _ => nan

/-- IEEE division restricted to finite values and NaN (0/0 is NaN). -/
def div : PyFloat → PyFloat → PyFloat
  | fin a, fin b => if b = 0 then nan else fin (a / b)
  | _, _ => nan

/-- IEEE `<`: every comparison with NaN is false. -/
def ltb : PyFloat → PyFloat → Bool
  | fin a, fin b => decide (a < b)
  | _, _ => false

end PyFloat

/-- `np.sum` semantics over the model: fold of IEEE addition (NaN anywhere
poisons the total). -/
def pySum (l : List PyFloat) : PyFloat := l.foldl PyFloat.add (PyFloat.fin 0)

/-- `np.dot(values, weights)`: sum of pairwise products. -/
def pyDot (xs ys : List PyFloat) : PyFloat := pySum (List.zipWith PyFloat.mul xs ys)

/-- `sm.stats.DescrStatsW(values, weights).mean`: the underlying numeric
library rejects mismatched-length and empty inputs (a shape error) and
otherwise returns `dot(values, weights) / sum(weights)` in float
arithmetic. -/
def descrStatsW_mean (values weights : List PyFloat) : Except String PyFloat :=
  if values.length ≠ weights.length ∨ values.length = 0 then
    Except.error "shapes not aligned"
  else
    Except.ok (PyFloat.div (pyDot values weights) (pySum weights))

/-- `mean_weighted` (lines 40-45): reject any negative weight with
`ValueError`, otherwise delegate to `DescrStatsW(...).mean`.  The negativity
test is IEEE `w < 0`, which is false for a NaN weight. -/
def mean_weighted (values weights : List PyFloat) : Except String PyFloat :=
  if weights.any (fun w => PyFloat.ltb w (PyFloat.fin 0)) then
    Except.error "Must pass non-negative weights."
  else descrStatsW_mean values weights

theorem foldl_add_fin (l : List ℚ) (a : ℚ) :
    (l.map PyFloat.fin).foldl PyFloat.add (PyFloat.fin a) = PyFloat.fin (a + l.sum) := by
  induction l generalizing a with
  | nil => simp
  | cons x l ih => simp [PyFloat.add, ih, add_assoc]

theorem pySum_map_fin (l : List ℚ) : pySum (l.map PyFloat.fin) = PyFloat.fin l.sum := by
  simpa using foldl_add_fin l 0

theorem add_nan_right (x : PyFloat) : PyFloat.add x PyFloat.nan = PyFloat.nan := by
  cases x <;> rfl

theorem foldl_add_nan (l : List PyFloat) : l.foldl PyFloat.add PyFloat.nan = PyFloat.nan := by
  induction l with
  | nil => rfl
  | cons x l ih =>
      have : PyFloat.add PyFloat.nan x = PyFloat.nan := by cases x <;> rfl
      simp [this, ih]

theorem pySum_of_nan_mem {l : List PyFloat} (h : PyFloat.nan ∈ l) :
    pySum l = PyFloat.nan := by
  rw [pySum]
  generalize PyFloat.fin 0 = acc
  induction l generalizing acc with
  | nil => cases h
  | cons x l ih =>
      rcases List.mem_cons.mp h with rfl | h
      · rw [List.foldl_cons, add_nan_right]
        exact foldl_add_nan l
      · exact ih h _

theorem nan_mem_zipWith_left {vs ws : List PyFloat} (h : PyFloat.nan ∈ vs)
    (hlen : vs.length = ws.length) : PyFloat.nan ∈ List.zipWith PyFloat.mul vs ws := by
  induction vs generalizing ws with
  | nil => cases h
  | cons v vs ih =>
      cases ws with
      | nil => cases hlen
      | cons w ws =>
          rcases List.mem_cons.mp h with rfl | h
          · have : PyFloat.mul PyFloat.nan w = PyFloat.nan := by cases w <;> rfl
            simp [List.zipWith_cons_cons, this]
          · exact List.mem_cons_of_mem _ (ih h (Nat.succ_injective hlen))

theorem nan_mem_zipWith_right {vs ws : List PyFloat} (h : PyFloat.nan ∈ ws)
    (hlen : vs.length = ws.length) : PyFloat.nan ∈ List.zipWith PyFloat.mul vs ws := by
  induction vs generalizing ws with
  | nil => cases ws with
    | nil => cases h
    | cons w ws => cases hlen
  | cons v vs ih =>
      cases ws with
      | nil => cases h
      | cons w ws =>
          rcases List.mem_cons.mp h with rfl | h
          · have : PyFloat.mul v PyFloat.nan = PyFloat.nan := by cases v <;> rfl
            simp [List.zipWith_cons_cons, this]
          · exact List.mem_cons_of_mem _ (ih h (Nat.succ_injective hlen))

theorem div_nan_left (x : PyFloat) : PyFloat.div PyFloat.nan x = PyFloat.nan := by
  cases x <;> rfl

theorem zipWith_mul_map_fin (qs ps : List ℚ) :
    List.zipWith PyFloat.mul (qs.map PyFloat.fin) (ps.map PyFloat.fin)
      = (List.zipWith (· * ·) qs ps).map PyFloat.fin := by
  induction qs generalizing ps with
  | nil => rfl
  | cons q qs ih =>
      cases ps with
      | nil => rfl
      | cons p ps => simp [PyFloat.mul, ih]

/-- C6: `mean_weighted` raises the validation error whenever some weight is
(IEEE-)negative; on equal-length, nonempty, all-finite inputs with
non-negative weights of nonzero total it returns the exact weighted mean
`sum(values*weights)/sum(weights)` — in particular `(1*3 + 2*4)/7 = 11/7` on
`[1,2], [3,4]` — and a NaN anywhere in the values or weights (which never
triggers the negativity test, since every IEEE comparison with NaN is false)
propagates to an `ok NaN` result rather than an error. -/
theorem mean_weighted_spec :
    (∀ values weights : List PyFloat,
      (∃ w ∈ weights, PyFloat.ltb w (PyFloat.fin 0) = true) →
        mean_weighted values weights = Except.error "Must pass non-negative weights.") ∧
    (∀ qs ps : List ℚ, qs.length = ps.length → qs ≠ [] → (∀ p ∈ ps, 0 ≤ p) →
      ps.sum ≠ 0 →
        mean_weighted (qs.map PyFloat.fin) (ps.map PyFloat.fin)
          = Except.ok (PyFloat.fin ((List.zipWith (· * ·) qs ps).sum / ps.sum))) ∧
    (mean_weighted [PyFloat.fin 1, PyFloat.fin 2] [PyFloat.fin 3, PyFloat.fin 4]
      = Except.ok (PyFloat.fin (11 / 7))) ∧
    (∀ values weights : List PyFloat, values.length = weights.length → values ≠ [] →
      (∀ w ∈ weights, PyFloat.ltb w (PyFloat.fin 0) = false) →
      (PyFloat.nan ∈ values ∨ PyFloat.nan ∈ weights) →
        mean_weighted values weights = Except.ok PyFloat.nan) := by
  refine ⟨?_, ?_, ?_, ?_⟩
  · intro values weights hneg
    rw [mean_weighted, if_pos (List.any_eq_true.mpr hneg)]
  · intro qs ps hlen hne hpos hsum
    have hany : (ps.map PyFloat.fin).any (fun w => PyFloat.ltb w (PyFloat.fin 0)) = false := by
      rw [List.any_eq_false]
      intro x hx
      obtain ⟨p, hp, rfl⟩ := List.mem_map.mp hx
      simpa [PyFloat.ltb] using not_lt.mpr (hpos p hp)
    have hlen2 : ¬ ((qs.map PyFloat.fin).length ≠ (ps.map PyFloat.fin).length ∨
        (qs.map PyFloat.fin).length = 0) := by
      push_neg
      refine ⟨by simpa using hlen, by simpa using (List.length_pos_of_ne_nil hne).ne'⟩
    rw [mean_weighted, if_neg (by simp [hany]), descrStatsW_mean, if_neg hlen2,
      pyDot, zipWith_mul_map_fin, pySum_map_fin, pySum_map_fin, PyFloat.div,
      if_neg hsum]
  · rw [mean_weighted, if_neg (by decide), descrStatsW_mean, if_neg (by decide)]
    norm_num [pyDot, pySum, PyFloat.mul, PyFloat.add, PyFloat.div]
  · intro values weights hlen hne hnoneg hnan
    have hany : weights.any (fun w => PyFloat.ltb w (PyFloat.fin 0)) = false :=
      List.any_eq_false.mpr (fun x hx => by simp [hnoneg x hx])
    have hlen2 : ¬ (values.length ≠ weights.length ∨ values.length = 0) := by
      push_neg
      exact ⟨hlen, (List.length_pos_of_ne_nil hne).ne'⟩
    have hdot : pyDot values weights = PyFloat.nan := by
      rcases hnan with h | h
      · exact pySum_of_nan_mem (nan_mem_zipWith_left h hlen)
      · exact pySum_of_nan_mem (nan_mem_zipWith_right h hlen)
    rw [mean_weighted, if_neg (by simp [hany]), descrStatsW_mean, if_neg hlen2,
      hdot, div_nan_left]

/-- Witness for C6: the negative-weight error at the unit test's input
`[1,2], [-3,4]` and NaN propagation at `[1, NaN], [3, 4]`, both obtained by
applying the theorem with its hypotheses discharged concretely. -/
theorem mean_weighted_spec_witness :
    (∃ w ∈ [PyFloat.fin (-3), PyFloat.fin 4], PyFloat.ltb w (PyFloat.fin 0) = true) ∧
    mean_weighted [PyFloat.fin 1, PyFloat.fin 2] [PyFloat.fin (-3), PyFloat.fin 4]
      = Except.error "Must pass non-negative weights." ∧
    mean_weighted [PyFloat.fin 1, PyFloat.nan] [PyFloat.fin 3, PyFloat.fin 4]
      = Except.ok PyFloat.nan :=
  ⟨by decide,
    mean_weighted_spec.1 _ _ (by decide),
    mean_weighted_spec.2.2.2 _ _ (by decide) (by decide) (by decide)
      (Or.inl (by decide))⟩

/-! ## `kmgt_labels` (plotnine_utils.py lines 43-81)

The inputs are numbers; all the arithmetic the function performs —
`abs`, `* 1.1`, `log10` followed by `ceil`/`floor`, division by a power of
ten, three-significant-figure formatting — is exact at every input the
claims exercise, so numbers are modelled as rationals and the logarithms
computed exactly through decimal digit counts.  (Binary floating point can
disagree with the exact value only on a thin boundary set none of the
claims' inputs approach.) -/

/-- Decimal digit count, fuel-driven so that it reduces in the kernel
(`digits10Aux fuel n` is correct whenever `n ≤ fuel`). -/
def digits10Aux : ℕ → ℕ → ℕ
  | 0, _ => 0
  | fuel + 1, n => if n = 0 then 0 else digits10Aux fuel (n / 10) + 1

/-- The number of decimal digits of `n` (0 for 0). -/
def digits10 (n : ℕ) : ℕ := digits10Aux n n

theorem digits10Aux_correct :
    ∀ fuel n, n ≤ fuel → n ≠ 0 →
      10 ^ (digits10Aux fuel n - 1) ≤ n ∧ n < 10 ^ digits10Aux fuel n := by
  intro fuel
  induction fuel with
  | zero => intro n hn h0; omega
  | succ fuel ih =>
      intro n hn h0
      rw [digits10Aux, if_neg h0]
      by_cases hq : n / 10 = 0
      · have h10 : n < 10 := by omega
        have : digits10Aux fuel (n / 10) = 0 := by
          cases fuel with
          | zero => rfl
          | succ fuel => rw [digits10Aux, if_pos hq]
        rw [this]
        constructor
        · simpa using Nat.one_le_iff_ne_zero.mpr h0
        · simpa using h10
      · have hle : n / 10 ≤ fuel := by omega
        obtain ⟨h1, h2⟩ := ih (n / 10) hle hq
        have hd1 : 1 ≤ digits10Aux fuel (n / 10) := by
          by_contra h
          have : digits10Aux fuel (n / 10) = 0 := by omega
          rw [this] at h2
          simp at h2
          omega
        constructor
        · calc 10 ^ (digits10Aux fuel (n / 10) + 1 - 1)
              = 10 ^ (digits10Aux fuel (n / 10) - 1) * 10 := by
                rw [Nat.add_sub_cancel, ← pow_succ]
                congr 1
                omega
            _ ≤ (n / 10) * 10 := Nat.mul_le_mul_right 10 h1
            _ ≤ n := Nat.div_mul_le_self n 10
        · calc n < (n / 10 + 1) * 10 := by omega
            _ ≤ 10 ^ digits10Aux fuel (n / 10) * 10 := Nat.mul_le_mul_right 10 (by omega)
            _ = 10 ^ (digits10Aux fuel (n / 10) + 1) := (pow_succ 10 _).symm

theorem digits10_bounds {n : ℕ} (h0 : n ≠ 0) :
    10 ^ (digits10 n - 1) ≤ n ∧ n < 10 ^ digits10 n :=
  digits10Aux_correct n n le_rfl h0

/-- The number of decimal digits of a nonzero number is positive. -/
theorem digits10_pos {n : ℕ} (h0 : n ≠ 0) : 1 ≤ digits10 n := by
  by_contra h
  have hz : digits10 n = 0 := by omega
  have h2 := (digits10_bounds h0).2
  rw [hz, pow_zero] at h2
  omega

/-- The digit-count estimate of log10 of a positive rational. -/
def digitRange (x : ℚ) : ℤ :=
  (digits10 x.num.natAbs : ℤ) - (digits10 x.den : ℤ)

theorem digitRange_bounds (x : ℚ) (hx : 0 < x) :
    (10 : ℚ) ^ (digitRange x - 1) < x ∧ x < (10 : ℚ) ^ (digitRange x + 1) := by
  have hnum : 0 < x.num := Rat.num_pos.mpr hx
  have ha0 : x.num.natAbs ≠ 0 := by
    simpa [Int.natAbs_eq_zero] using hnum.ne'
  have hb0 : x.den ≠ 0 := x.den_nz
  obtain ⟨ha1, ha2⟩ := digits10_bounds ha0
  obtain ⟨hb1, hb2⟩ := digits10_bounds hb0
  have hda : 1 ≤ digits10 x.num.natAbs := digits10_pos ha0
  have hdb : 1 ≤ digits10 x.den := digits10_pos hb0
  have hxeq : x = (x.num : ℚ) / (x.den : ℚ) := (Rat.num_div_den x).symm
  have hdenpos : (0 : ℚ) < (x.den : ℚ) := by
    exact_mod_cast Nat.pos_of_ne_zero hb0
  have hnumq : (x.num : ℚ) = (x.num.natAbs : ℚ) := by
    rw [Int.cast_natAbs]
    exact_mod_cast (abs_of_pos hnum).symm
  have hten : (0 : ℚ) < 10 := by norm_num
  have hzA1 : (10 : ℚ) ^ ((digits10 x.num.natAbs : ℤ) - 1) ≤ (x.num.natAbs : ℚ) := by
    have he : ((digits10 x.num.natAbs : ℤ) - 1)
        = ((digits10 x.num.natAbs - 1 : ℕ) : ℤ) := by omega
    rw [he, zpow_natCast]
    exact_mod_cast ha1
  have hzA2 : (x.num.natAbs : ℚ) < (10 : ℚ) ^ ((digits10 x.num.natAbs : ℤ)) := by
    rw [zpow_natCast]
    exact_mod_cast ha2
  have hzB1 : (10 : ℚ) ^ ((digits10 x.den : ℤ) - 1) ≤ (x.den : ℚ) := by
    have he : ((digits10 x.den : ℤ) - 1) = ((digits10 x.den - 1 : ℕ) : ℤ) := by omega
    rw [he, zpow_natCast]
    exact_mod_cast hb1
  have hzB2 : (x.den : ℚ) < (10 : ℚ) ^ ((digits10 x.den : ℤ)) := by
    rw [zpow_natCast]
    exact_mod_cast hb2
  constructor
  · conv_rhs => rw [hxeq, hnumq]
    unfold digitRange
    rw [lt_div_iff₀ hdenpos]
    calc (10 : ℚ) ^ ((digits10 x.num.natAbs : ℤ) - (digits10 x.den : ℤ) - 1) * (x.den : ℚ)
        < (10 : ℚ) ^ ((digits10 x.num.natAbs : ℤ) - (digits10 x.den : ℤ) - 1)
            * (10 : ℚ) ^ ((digits10 x.den : ℤ)) :=
          mul_lt_mul_of_pos_left hzB2 (zpow_pos hten _)
      _ = (10 : ℚ) ^ ((digits10 x.num.natAbs : ℤ) - 1) := by
          rw [← zpow_add₀ (by norm_num : (10 : ℚ) ≠ 0)]
          congr 1
          ring
      _ ≤ (x.num.natAbs : ℚ) := hzA1
  · conv_lhs => rw [hxeq, hnumq]
    unfold digitRange
    rw [div_lt_iff₀ hdenpos]
    calc (x.num.natAbs : ℚ)
        < (10 : ℚ) ^ ((digits10 x.num.natAbs : ℤ)) := hzA2
      _ = (10 : ℚ) ^ ((digits10 x.num.natAbs : ℤ) - (digits10 x.den : ℤ) + 1)
            * (10 : ℚ) ^ ((digits10 x.den : ℤ) - 1) := by
          rw [← zpow_add₀ (by norm_num : (10 : ℚ) ≠ 0)]
          congr 1
          ring
      _ ≤ (10 : ℚ) ^ ((digits10 x.num.natAbs : ℤ) - (digits10 x.den : ℤ) + 1)
            * (x.den : ℚ) :=
          mul_le_mul_of_nonneg_left hzB1 (zpow_pos hten _).le

/-- `int(np.ceil(np.log10 x))` for positive `x`, computed exactly: the
smallest `k` with `x ≤ 10 ^ k`. -/
def ceilLog10 (x : ℚ) : ℤ :=
  if x ≤ (10 : ℚ) ^ digitRange x then digitRange x else digitRange x + 1

/-- `int(np.floor(np.log10 x))` for positive `x`, computed exactly: the
largest `k` with `10 ^ k ≤ x`. -/
def floorLog10 (x : ℚ) : ℤ :=
  if (10 : ℚ) ^ digitRange x ≤ x then digitRange x else digitRange x - 1

theorem zpow_ten_lt {m n : ℤ} (h : m < n) : (10 : ℚ) ^ m < 10 ^ n :=
  zpow_lt_zpow_right₀ (by norm_num) h

theorem zpow_ten_le {m n : ℤ} (h : m ≤ n) : (10 : ℚ) ^ m ≤ 10 ^ n :=
  zpow_le_zpow_right₀ (by norm_num) h

theorem ceilLog10_spec {x : ℚ} (hx : 0 < x) :
    (10 : ℚ) ^ (ceilLog10 x - 1) < x ∧ x ≤ (10 : ℚ) ^ ceilLog10 x := by
  obtain ⟨hb1, hb2⟩ := digitRange_bounds x hx
  rw [ceilLog10]
  by_cases h : x ≤ (10 : ℚ) ^ digitRange x
  · rw [if_pos h]
    exact ⟨hb1, h⟩
  · rw [if_neg h]
    refine ⟨?_, hb2.le⟩
    simpa using not_le.mp h

theorem floorLog10_spec {x : ℚ} (hx : 0 < x) :
    (10 : ℚ) ^ floorLog10 x ≤ x ∧ x < (10 : ℚ) ^ (floorLog10 x + 1) := by
  obtain ⟨hb1, hb2⟩ := digitRange_bounds x hx
  rw [floorLog10]
  by_cases h : (10 : ℚ) ^ digitRange x ≤ x
  · rw [if_pos h]
    exact ⟨h, hb2⟩
  · rw [if_neg h]
    refine ⟨hb1.le, ?_⟩
    simpa using not_le.mp h

theorem ceilLog10_eq {x : ℚ} {c : ℤ} (hx : 0 < x)
    (h1 : (10 : ℚ) ^ (c - 1) < x) (h2 : x ≤ (10 : ℚ) ^ c) : ceilLog10 x = c := by
  obtain ⟨g1, g2⟩ := ceilLog10_spec hx
  by_contra hne
  rcases lt_or_gt_of_ne hne with hlt | hgt
  · exact absurd h1 (not_lt.mpr (le_trans g2 (zpow_ten_le (by omega))))
  · exact absurd g1 (not_lt.mpr (le_trans h2 (zpow_ten_le (by omega))))

theorem floorLog10_eq {x : ℚ} {c : ℤ} (hx : 0 < x)
    (h1 : (10 : ℚ) ^ c ≤ x) (h2 : x < (10 : ℚ) ^ (c + 1)) : floorLog10 x = c := by
  obtain ⟨g1, g2⟩ := floorLog10_spec hx
  by_contra hne
  rcases lt_or_gt_of_ne hne with hlt | hgt
  · exact absurd h1 (not_le.mpr (lt_of_lt_of_le g2 (zpow_ten_le (by omega))))
  · exact absurd h2 (not_lt.mpr (le_trans (zpow_ten_le (by omega)) g1))

theorem le_floorLog10 {x : ℚ} {k : ℤ} (hx : 0 < x) (h : (10 : ℚ) ^ k ≤ x) :
    k ≤ floorLog10 x := by
  by_contra h'
  push_neg at h'
  exact absurd h
    (not_le.mpr (lt_of_lt_of_le (floorLog10_spec hx).2 (zpow_ten_le (by omega))))

theorem floorLog10_le {x : ℚ} {k : ℤ} (hx : 0 < x) (h : x < (10 : ℚ) ^ (k + 1)) :
    floorLog10 x ≤ k := by
  by_contra h'
  push_neg at h'
  exact absurd h
    (not_lt.mpr (le_trans (zpow_ten_le (by omega)) (floorLog10_spec hx).1))

/-- Round to the nearest integer, ties to even — the rounding used by
Python's float formatting. -/
def roundHalfEven (x : ℚ) : ℤ :=
  let f := ⌊x⌋
  if x - f < 1 / 2 then f
  else if (1 : ℚ) / 2 < x - f then f + 1
  else if f % 2 = 0 then f else f + 1

/-- The three decimal digits of `r` (meaningful for `100 ≤ r ≤ 999`, the
range the formatter produces). -/
def digitsOfR (r : ℤ) : List Char :=
  [Nat.digitChar (r.toNat / 100), Nat.digitChar (r.toNat / 10 % 10),
    Nat.digitChar (r.toNat % 10)]

/-- Remove trailing `'0'` characters (the `g` format drops trailing zeros of
the fractional part). -/
def stripTrailingZeros (l : List Char) : List Char :=
  (l.reverse.dropWhile (fun c => c = '0')).reverse

/-- Fixed-point rendering of the three significant digits `ds` with decimal
exponent `e`; invoked only for `-5 < e < 3` (outside that range the `g`
format switches to scientific notation). -/
def fixedChars (ds : List Char) (e : ℤ) : List Char :=
  if 0 ≤ e then
    let k := (e + 1).toNat
    let ip := ds.take k
    let fp := stripTrailingZeros (ds.drop k)
    if fp = [] then ip else ip ++ '.' :: fp
  else
    '0' :: '.' :: (List.replicate (-e - 1).toNat '0' ++ stripTrailingZeros ds)

/-- Scientific rendering `d.dde±dd` of the digits `ds` with exponent `e`. -/
def sciChars (ds : List Char) (e : ℤ) : List Char :=
  let rest := stripTrailingZeros ds.tail
  ds.take 1 ++ (if rest = [] then [] else '.' :: rest)
    ++ 'e' :: (if e < 0 then '-' else '+') ::
      (let s := Nat.toDigits 10 e.natAbs
       if s.length < 2 then '0' :: s else s)

/-- `'{:.3g}'.format(m)`: round `|m|` to three significant decimal digits
and render them at their decimal exponent, dropping trailing fractional
zeros; scientific notation outside exponent range `(-5, 3)`. -/
def fmt3gChars (m : ℚ) : List Char :=
  if m = 0 then ['0']
  else
    let a := |m|
    let e0 := floorLog10 a
    let r0 := roundHalfEven (a / (10 : ℚ) ^ (e0 - 2))
    let r := if r0 = 1000 then 100 else r0
    let e := if r0 = 1000 then e0 + 1 else e0
    (if m < 0 then ['-'] else [])
      ++ (if e < -4 ∨ 2 < e then sciChars (digitsOfR r) e else fixedChars (digitsOfR r) e)

def fmt3g (m : ℚ) : String := String.mk (fmt3gChars m)

/-- The number of significant decimal digits a rendered label shows: its
digit characters with the leading zeros dropped. -/
def decSigDigits (l : List Char) : ℕ :=
  ((l.filter (fun c => c.isDigit)).dropWhile (fun c => c = '0')).length

/-- The `power_map` dictionary (lines 67-77); an index outside `0..8` is a
`KeyError`, modelled as `none`. -/
def power_map : ℤ → Option String
  | 0 => some ""
  | 1 => some "K"
  | 2 => some "M"
  | 3 => some "G"
  | 4 => some "T"
  | 5 => some "P"
  | 6 => some "E"
  | 7 => some "Z"
  | 8 => some "Y"
  | _ => none

/-- Python's `str(num)`, exact for integer-valued inputs (the only ones the
claims feed to the unscaled branch). -/
def pyStr (q : ℚ) : String :=
  if q.den = 1 then toString q.num else toString q

/-- `mille_scale` (line 64): `int(np.floor((np.ceil(np.log10(abs(num * 1.1)))
- 1) / 3))`, computed exactly; `Int.ediv` by the positive constant 3 is
floor division. -/
def milleScale (num : ℚ) : ℤ :=
  (ceilLog10 |num * (11 / 10)| - 1).ediv 3

/-- `label_one` (lines 61-79): zero maps to `"0"` (no prefix/suffix); a
scale beyond 8 (`Y`) renders `str(num)` unscaled between prefix and suffix;
otherwise the mantissa `num / 10 ** (3 * mille_scale)` is formatted with
three significant figures and suffixed from `power_map` — an index the
dictionary lacks (any negative scale) raises `KeyError`, modelled as
`none`. -/
def label_one (pre suf : String) (num : ℚ) : Option String :=
  if num = 0 then some "0"
  else
    let mille_scale := milleScale num
    if 8 < mille_scale then some (pre ++ pyStr num ++ suf)
    else (power_map mille_scale).map (fun sfx =>
      pre ++ fmt3g (num / (10 : ℚ) ^ (3 * mille_scale)) ++ sfx ++ suf)

/-- `kmgt_labels` (lines 43-81): label every list element; an exception in
the comprehension aborts the whole call (`none`). -/
def kmgt_labels (numlist : List ℚ) (pre suf : String) : Option (List String) :=
  numlist.mapM (label_one pre suf)

theorem roundHalfEven_bounds (x : ℚ) :
    ⌊x⌋ ≤ roundHalfEven x ∧ roundHalfEven x ≤ ⌊x⌋ + 1 := by
  unfold roundHalfEven
  dsimp only
  split_ifs <;> omega

theorem dropWhile_len_le (p : Char → Bool) (l : List Char) :
    (l.dropWhile p).length ≤ l.length :=
  (l.dropWhile_suffix p).sublist.length_le

theorem stripTrailingZeros_length_le (l : List Char) :
    (stripTrailingZeros l).length ≤ l.length := by
  unfold stripTrailingZeros
  simpa using dropWhile_len_le (fun c => c = '0') l.reverse

theorem dropWhile_replicate_append {p : Char → Bool} {a : Char} (hp : p a = true)
    (n : ℕ) (F : List Char) :
    List.dropWhile p (List.replicate n a ++ F) = List.dropWhile p F := by
  induction n with
  | zero => rfl
  | succ n ih => simp [List.replicate_succ, List.dropWhile_cons, hp, ih]

theorem decSigDigits_le_of_digits_le {l : List Char} {k : ℕ}
    (h : (l.filter (fun c => c.isDigit)).length ≤ k) : decSigDigits l ≤ k :=
  le_trans (dropWhile_len_le _ _) h

theorem decSigDigits_fixedChars {ds : List Char} (e : ℤ) (hds : ds.length = 3) :
    decSigDigits (fixedChars ds e) ≤ 3 := by
  unfold fixedChars
  by_cases he : 0 ≤ e
  · rw [if_pos he]
    have h1 : (ds.take (e + 1).toNat).length = min (e + 1).toNat 3 := by
      rw [List.length_take, hds]
    have h2 : (ds.drop (e + 1).toNat).length = 3 - (e + 1).toNat := by
      rw [List.length_drop, hds]
    have h3 : (stripTrailingZeros (ds.drop (e + 1).toNat)).length
        ≤ 3 - (e + 1).toNat :=
      le_trans (stripTrailingZeros_length_le _) (le_of_eq h2)
    by_cases hfp : stripTrailingZeros (ds.drop (e + 1).toNat) = []
    · rw [if_pos hfp]
      refine decSigDigits_le_of_digits_le (le_trans (List.length_filter_le _ _) ?_)
      rw [h1]; omega
    · rw [if_neg hfp]
      refine decSigDigits_le_of_digits_le ?_
      have hdot : ('.').isDigit = false := by decide
      calc (List.filter (fun c => c.isDigit) (ds.take (e + 1).toNat ++ '.' ::
              stripTrailingZeros (ds.drop (e + 1).toNat))).length
          = (List.filter (fun c => c.isDigit) (ds.take (e + 1).toNat)).length
            + (List.filter (fun c => c.isDigit)
                (stripTrailingZeros (ds.drop (e + 1).toNat))).length := by
            rw [List.filter_append, List.length_append, List.filter_cons, hdot]
            simp
        _ ≤ (ds.take (e + 1).toNat).length
            + (stripTrailingZeros (ds.drop (e + 1).toNat)).length :=
            Nat.add_le_add (List.length_filter_le _ _) (List.length_filter_le _ _)
        _ ≤ 3 := by rw [h1]; omega
  · rw [if_neg he]
    have hz : ('0').isDigit = true := by decide
    have hdot : ('.').isDigit = false := by decide
    have hstrip : (stripTrailingZeros ds).length ≤ 3 :=
      le_trans (stripTrailingZeros_length_le _) (le_of_eq hds)
    unfold decSigDigits
    rw [List.filter_cons, hz, List.filter_cons, hdot,
      List.filter_append, List.filter_replicate, if_pos hz]
    simp only [if_true, Bool.false_eq_true, if_false]
    rw [List.dropWhile_cons]
    simp only [decide_eq_true_eq, if_pos rfl]
    rw [dropWhile_replicate_append (by decide)]
    exact le_trans (dropWhile_len_le _ _)
      (le_trans (List.length_filter_le _ _) hstrip)

theorem mantissa_bounds (q : ℚ) (hq : q ≠ 0) :
    0 < |q| / (10 : ℚ) ^ (3 * milleScale q) ∧
    -1 ≤ floorLog10 (|q| / (10 : ℚ) ^ (3 * milleScale q)) ∧
    floorLog10 (|q| / (10 : ℚ) ^ (3 * milleScale q)) ≤ 2 ∧
    |q| / (10 : ℚ) ^ (3 * milleScale q) ≤ 10000 / 11 := by
  have hql : (0 : ℚ) < |q| := abs_pos.mpr hq
  have habs : |q * (11 / 10)| = |q| * (11 / 10) := by
    rw [abs_mul]
    norm_num
  have hx : (0 : ℚ) < |q| * (11 / 10) := by positivity
  have hms : milleScale q = (ceilLog10 (|q| * (11 / 10)) - 1).ediv 3 := by
    rw [milleScale, habs]
  set c := ceilLog10 (|q| * (11 / 10)) with hc
  obtain ⟨s1, s2⟩ := ceilLog10_spec hx
  rw [← hc] at s1 s2
  set ms := milleScale q with hmsdef
  set j : ℤ := c - 1 - 3 * ms with hj
  have hdm : 3 * ((c - 1).ediv 3) + (c - 1).emod 3 = c - 1 :=
    Int.ediv_add_emod (c - 1) 3
  have hq0 : 0 ≤ (c - 1).emod 3 := Int.emod_nonneg (c - 1) (by norm_num)
  have hq3 : (c - 1).emod 3 < 3 := Int.emod_lt_of_pos (c - 1) (by norm_num)
  have hj0 : 0 ≤ j := by
    rw [hj, hms]
    omega
  have hj2 : j ≤ 2 := by
    rw [hj, hms]
    omega
  have hpow : (0 : ℚ) < (10 : ℚ) ^ (3 * ms) := zpow_pos (by norm_num) _
  have hapos : 0 < |q| / (10 : ℚ) ^ (3 * ms) := div_pos hql hpow
  -- lower bound: 10 ^ j * (10/11) < a
  have key1 : (10 : ℚ) ^ j * (10 / 11) < |q| / (10 : ℚ) ^ (3 * ms) := by
    rw [lt_div_iff₀ hpow]
    have h1 : (10 : ℚ) ^ (c - 1) * (10 / 11) < |q| := by
      have := mul_lt_mul_of_pos_right s1 (show (0 : ℚ) < 10 / 11 by norm_num)
      calc (10 : ℚ) ^ (c - 1) * (10 / 11) < |q| * (11 / 10) * (10 / 11) := this
        _ = |q| := by ring
    calc (10 : ℚ) ^ j * (10 / 11) * (10 : ℚ) ^ (3 * ms)
        = (10 : ℚ) ^ (j + 3 * ms) * (10 / 11) := by
          rw [zpow_add₀ (by norm_num : (10 : ℚ) ≠ 0)]
          ring
      _ = (10 : ℚ) ^ (c - 1) * (10 / 11) := by
          rw [hj]
          congr 2
          ring
      _ < |q| := h1
  -- upper bound: a ≤ 10 ^ (j+1) * (10/11)
  have key2 : |q| / (10 : ℚ) ^ (3 * ms) ≤ (10 : ℚ) ^ (j + 1) * (10 / 11) := by
    rw [div_le_iff₀ hpow]
    have h2 : |q| ≤ (10 : ℚ) ^ c * (10 / 11) := by
      have := mul_le_mul_of_nonneg_right s2 (show (0 : ℚ) ≤ 10 / 11 by norm_num)
      calc |q| = |q| * (11 / 10) * (10 / 11) := by ring
        _ ≤ (10 : ℚ) ^ c * (10 / 11) := this
    have hsplit : (10 : ℚ) ^ c = (10 : ℚ) ^ (j + 1) * (10 : ℚ) ^ (3 * ms) := by
      rw [← zpow_add₀ (by norm_num : (10 : ℚ) ≠ 0)]
      congr 1
      rw [hj]
      ring
    calc |q| ≤ (10 : ℚ) ^ c * (10 / 11) := h2
      _ = (10 : ℚ) ^ (j + 1) * (10 / 11) * (10 : ℚ) ^ (3 * ms) := by
          rw [hsplit]
          ring
  refine ⟨hapos, ?_, ?_, ?_⟩
  · -- floor ≥ j - 1 ≥ -1
    have hlow : (10 : ℚ) ^ (j - 1) ≤ |q| / (10 : ℚ) ^ (3 * ms) := by
      refine le_of_lt (lt_of_le_of_lt ?_ key1)
      calc (10 : ℚ) ^ (j - 1) = (10 : ℚ) ^ j * (10 : ℚ)⁻¹ := by
            rw [zpow_sub₀ (by norm_num : (10 : ℚ) ≠ 0), zpow_one, div_eq_mul_inv]
        _ ≤ (10 : ℚ) ^ j * (10 / 11) := by
            refine mul_le_mul_of_nonneg_left (by norm_num) (zpow_pos (by norm_num) _).le
    have := le_floorLog10 hapos hlow
    omega
  · -- floor ≤ j ≤ 2
    have hup : |q| / (10 : ℚ) ^ (3 * ms) < (10 : ℚ) ^ (j + 1) :=
      lt_of_le_of_lt key2 (by
        calc (10 : ℚ) ^ (j + 1) * (10 / 11) < (10 : ℚ) ^ (j + 1) * 1 := by
              refine mul_lt_mul_of_pos_left (by norm_num) (zpow_pos (by norm_num) _)
          _ = (10 : ℚ) ^ (j + 1) := mul_one _)
    have := floorLog10_le hapos hup
    omega
  · -- a ≤ 10^3 * 10/11 = 10000/11
    refine le_trans key2 ?_
    calc (10 : ℚ) ^ (j + 1) * (10 / 11) ≤ (10 : ℚ) ^ (3 : ℤ) * (10 / 11) := by
          refine mul_le_mul_of_nonneg_right (zpow_ten_le (by omega)) (by norm_num)
      _ = 10000 / 11 := by norm_num

theorem decSigDigits_sign_append (c : Prop) [Decidable c] (L : List Char) :
    decSigDigits ((if c then ['-'] else []) ++ L) = decSigDigits L := by
  by_cases h : c
  · rw [if_pos h]
    unfold decSigDigits
    rw [List.singleton_append, List.filter_cons]
    simp [show ('-').isDigit = false from by decide]
  · rw [if_neg h, List.nil_append]

theorem digitsOfR_length (r : ℤ) : (digitsOfR r).length = 3 := rfl

theorem fmt3gChars_sig {m : ℚ} (hm : m ≠ 0) (h1 : -1 ≤ floorLog10 |m|)
    (h2 : floorLog10 |m| ≤ 2) (h3 : |m| ≤ 10000 / 11) :
    decSigDigits (fmt3gChars m) ≤ 3 := by
  have ha : 0 < |m| := abs_pos.mpr hm
  obtain ⟨f1, f2⟩ := floorLog10_spec ha
  have hpow2 : (0 : ℚ) < (10 : ℚ) ^ (floorLog10 |m| - 2) := zpow_pos (by norm_num) _
  have hs_lo : (100 : ℚ) ≤ |m| / (10 : ℚ) ^ (floorLog10 |m| - 2) := by
    rw [le_div_iff₀ hpow2]
    calc (100 : ℚ) * (10 : ℚ) ^ (floorLog10 |m| - 2)
        = (10 : ℚ) ^ (floorLog10 |m|) := by
          rw [show (100 : ℚ) = (10 : ℚ) ^ (2 : ℤ) by norm_num,
            ← zpow_add₀ (by norm_num : (10 : ℚ) ≠ 0)]
          congr 1
          ring
      _ ≤ |m| := f1
  have hs_hi : |m| / (10 : ℚ) ^ (floorLog10 |m| - 2) < 1000 := by
    rw [div_lt_iff₀ hpow2]
    calc |m| < (10 : ℚ) ^ (floorLog10 |m| + 1) := f2
      _ = (1000 : ℚ) * (10 : ℚ) ^ (floorLog10 |m| - 2) := by
          rw [show (1000 : ℚ) = (10 : ℚ) ^ (3 : ℤ) by norm_num,
            ← zpow_add₀ (by norm_num : (10 : ℚ) ≠ 0)]
          congr 1
          ring
  obtain ⟨r1, r2⟩ := roundHalfEven_bounds (|m| / (10 : ℚ) ^ (floorLog10 |m| - 2))
  have hfl_lo : (100 : ℤ) ≤ ⌊|m| / (10 : ℚ) ^ (floorLog10 |m| - 2)⌋ :=
    Int.le_floor.mpr (by exact_mod_cast hs_lo)
  have hfl_hi : ⌊|m| / (10 : ℚ) ^ (floorLog10 |m| - 2)⌋ < 1000 :=
    Int.floor_lt.mpr (by exact_mod_cast hs_hi)
  rw [fmt3gChars, if_neg hm]
  dsimp only
  by_cases hr : roundHalfEven (|m| / (10 : ℚ) ^ (floorLog10 |m| - 2)) = 1000
  · -- rounding carried over: digits 100, exponent e0 + 1
    have he0le : floorLog10 |m| ≤ 1 := by
      by_contra hgt
      have he2 : floorLog10 |m| = 2 := by omega
      have hseq : |m| / (10 : ℚ) ^ (floorLog10 |m| - 2) = |m| := by
        rw [he2]
        norm_num
      have : ⌊|m| / (10 : ℚ) ^ (floorLog10 |m| - 2)⌋ ≤ 909 := by
        rw [hseq]
        have : |m| < 910 := lt_of_le_of_lt h3 (by norm_num)
        have := Int.floor_lt.mpr (show |m| < ((910 : ℤ) : ℚ) by exact_mod_cast this)
        omega
      omega
    have hbranch : ¬ ((floorLog10 |m| + 1) < -4 ∨ 2 < (floorLog10 |m| + 1)) := by
      omega
    rw [if_pos hr, if_pos hr, if_neg hbranch]
    rw [decSigDigits_sign_append]
    exact decSigDigits_fixedChars _ (digitsOfR_length _)
  · have hbranch : ¬ (floorLog10 |m| < -4 ∨ 2 < floorLog10 |m|) := by
      omega
    rw [if_neg hr, if_neg hr, if_neg hbranch]
    rw [decSigDigits_sign_append]
    exact decSigDigits_fixedChars _ (digitsOfR_length _)

theorem power_map_neg {i : ℤ} (h : i < 0) : power_map i = none := by
  unfold power_map
  split <;> first | rfl | omega

theorem milleScale_1230 : milleScale (1230 : ℚ) = 1 := by
  have habs : |(1230 : ℚ) * (11 / 10)| = 1353 := by
    rw [abs_of_pos (by norm_num)]
    norm_num
  have hceil : ceilLog10 (1353 : ℚ) = 4 :=
    ceilLog10_eq (by norm_num) (by norm_num) (by norm_num)
  rw [milleScale, habs, hceil]
  decide

theorem roundHalfEven_123 : roundHalfEven (123 : ℚ) = 123 := by
  have hf : ⌊(123 : ℚ)⌋ = 123 := by norm_num
  simp only [roundHalfEven, hf]
  norm_num

theorem fmt3g_123_100 : fmt3g ((123 : ℚ) / 100) = "1.23" := by
  have habs : |(123 : ℚ) / 100| = 123 / 100 := abs_of_pos (by norm_num)
  have he0 : floorLog10 ((123 : ℚ) / 100) = 0 :=
    floorLog10_eq (by norm_num) (by norm_num) (by norm_num)
  rw [fmt3g, fmt3gChars, if_neg (by norm_num : ¬ (123 : ℚ) / 100 = 0)]
  dsimp only
  rw [habs, he0]
  rw [show ((123 : ℚ) / 100) / (10 : ℚ) ^ ((0 : ℤ) - 2) = 123 by norm_num,
    roundHalfEven_123]
  rw [if_neg (by norm_num : ¬ ((123 : ℚ) / 100) < 0)]
  rfl

theorem label_one_1230 : label_one "" "" (1230 : ℚ) = some "1.23K" := by
  rw [label_one, if_neg (by norm_num : ¬ (1230 : ℚ) = 0)]
  dsimp only
  rw [milleScale_1230, if_neg (by norm_num : ¬ (8 : ℤ) < 1)]
  rw [show ((1230 : ℚ) / (10 : ℚ) ^ ((3 : ℤ) * 1)) = 123 / 100 by norm_num,
    fmt3g_123_100]
  rfl

theorem milleScale_half : milleScale ((1 : ℚ) / 2) = -1 := by
  have habs : |(1 : ℚ) / 2 * (11 / 10)| = 11 / 20 := by
    rw [abs_of_pos (by norm_num)]
    norm_num
  have hceil : ceilLog10 ((11 : ℚ) / 20) = 0 :=
    ceilLog10_eq (by norm_num) (by norm_num) (by norm_num)
  rw [milleScale, habs, hceil]
  decide

theorem milleScale_1e27 : milleScale (((10 ^ 27 : ℤ) : ℚ)) = 9 := by
  have habs : |((10 ^ 27 : ℤ) : ℚ) * (11 / 10)| = ((11 * 10 ^ 26 : ℤ) : ℚ) := by
    rw [abs_of_pos (by positivity)]
    push_cast
    ring
  have hceil : ceilLog10 (((11 * 10 ^ 26 : ℤ) : ℚ)) = 28 := by
    refine ceilLog10_eq (by positivity) ?_ ?_
    · push_cast
      norm_num
    · push_cast
      norm_num
  rw [milleScale, habs, hceil]
  decide

theorem pyStr_1e27 : pyStr (((10 ^ 27 : ℤ) : ℚ)) = "1000000000000000000000000000" := by
  have hden : (((10 ^ 27 : ℤ) : ℚ)).den = 1 := Rat.den_intCast _
  have hnum : (((10 ^ 27 : ℤ) : ℚ)).num = 10 ^ 27 := Rat.num_intCast _
  rw [pyStr, if_pos hden, hnum]
  decide

theorem kmgt_singleton (pre suf : String) (x : ℚ) :
    kmgt_labels [x] pre suf = (label_one pre suf x).map (fun s => [s]) := by
  rw [kmgt_labels]
  cases h : label_one pre suf x <;> simp [List.mapM, List.mapM.loop, h]

/-- C7 as stated is false: `kmgt_labels` does not map every number to a
string.  For any nonzero input of magnitude at most 10/11 (here 1/2) the
computed `mille_scale` is negative, `power_map[mille_scale]` is a missing
dictionary key, and the call raises `KeyError` instead of producing labels
(modelled as `none`). -/
theorem kmgt_labels_counterexample : kmgt_labels [(1 : ℚ) / 2] "" "" = none := by
  rw [kmgt_singleton]
  have hlabel : label_one "" "" ((1 : ℚ) / 2) = none := by
    rw [label_one, if_neg (by norm_num : ¬ (1 : ℚ) / 2 = 0)]
    dsimp only
    rw [milleScale_half, if_neg (by norm_num : ¬ (8 : ℤ) < -1),
      power_map_neg (by norm_num)]
    rfl
  rw [hlabel]
  rfl

/-- C7 amended: elements whose magnitude scale lands in the dictionary
(`0 ≤ mille_scale ≤ 8`, i.e. roughly `|x| > 10/11`) are rendered as
prefix ++ three-significant-figure mantissa ++ engineering suffix
(one of "", K, M, G, T, P, E, Z, Y) ++ suffix — in particular
`kmgt_labels([0]) = ['0']` and `kmgt_labels([1230]) = ['1.23K']`; a value
scaled beyond Y (such as 10^27) is rendered unscaled as `str(num)` with the
prefix and suffix applied; but a nonzero element with negative scale
(`|x| ≤ 10/11`) hits a missing dictionary key and raises `KeyError` instead
of producing a string, so the claim's "every list of numbers" must exclude
such elements. -/
theorem kmgt_labels_amended :
    kmgt_labels [0] "" "" = some ["0"] ∧
    kmgt_labels [1230] "" "" = some ["1.23K"] ∧
    (∀ pre suf : String, kmgt_labels [((10 ^ 27 : ℤ) : ℚ)] pre suf
      = some [pre ++ "1000000000000000000000000000" ++ suf]) ∧
    (∀ (q : ℚ) (pre suf : String), q ≠ 0 → 0 ≤ milleScale q → milleScale q ≤ 8 →
      ∃ sfx, power_map (milleScale q) = some sfx ∧
        sfx ∈ ["", "K", "M", "G", "T", "P", "E", "Z", "Y"] ∧
        label_one pre suf q
          = some (pre ++ fmt3g (q / (10 : ℚ) ^ (3 * milleScale q)) ++ sfx ++ suf) ∧
        decSigDigits (fmt3gChars (q / (10 : ℚ) ^ (3 * milleScale q))) ≤ 3) ∧
    (∀ (q : ℚ) (pre suf : String), q ≠ 0 → 8 < milleScale q →
      label_one pre suf q = some (pre ++ pyStr q ++ suf)) ∧
    (∀ (q : ℚ) (pre suf : String), q ≠ 0 → milleScale q < 0 →
      label_one pre suf q = none) := by
  refine ⟨?_, ?_, ?_, ?_, ?_, ?_⟩
  · rw [kmgt_singleton, label_one, if_pos rfl]
    rfl
  · rw [kmgt_singleton, label_one_1230]
    rfl
  · intro pre suf
    have h0 : ¬ ((10 ^ 27 : ℤ) : ℚ) = 0 := by
      push_cast
      positivity
    rw [kmgt_singleton, label_one, if_neg h0]
    dsimp only
    rw [milleScale_1e27, if_pos (by norm_num : (8 : ℤ) < 9), pyStr_1e27]
    rfl
  · intro q pre suf hq hms0 hms8
    have habs : |q / (10 : ℚ) ^ (3 * milleScale q)| = |q| / (10 : ℚ) ^ (3 * milleScale q) := by
      rw [abs_div,
        abs_of_pos (zpow_pos (show (0 : ℚ) < 10 by norm_num) (3 * milleScale q))]
    obtain ⟨hpos, hb1, hb2, hb3⟩ := mantissa_bounds q hq
    have hmne : q / (10 : ℚ) ^ (3 * milleScale q) ≠ 0 := by
      intro h0
      rw [div_eq_zero_iff] at h0
      rcases h0 with h0 | h0
      · exact hq h0
      · exact absurd h0 (ne_of_gt (zpow_pos (by norm_num : (0:ℚ) < 10) (3 * milleScale q)))
    have hsig : decSigDigits (fmt3gChars (q / (10 : ℚ) ^ (3 * milleScale q))) ≤ 3 := by
      refine fmt3gChars_sig hmne ?_ ?_ ?_ <;> rw [habs]
      · exact hb1
      · exact hb2
      · exact hb3
    obtain ⟨sfx, hsfx, hmem⟩ : ∃ sfx, power_map (milleScale q) = some sfx ∧
        sfx ∈ ["", "K", "M", "G", "T", "P", "E", "Z", "Y"] := by
      generalize hk : milleScale q = k at hms0 hms8
      interval_cases k <;> exact ⟨_, rfl, by decide⟩
    refine ⟨sfx, hsfx, hmem, ?_, hsig⟩
    rw [label_one, if_neg hq]
    dsimp only
    rw [if_neg (by omega : ¬ (8 : ℤ) < milleScale q), hsfx]
    rfl
  · intro q pre suf hq hms
    rw [label_one, if_neg hq]
    dsimp only
    rw [if_pos hms]
  · intro q pre suf hq hms
    rw [label_one, if_neg hq]
    dsimp only
    rw [if_neg (by omega : ¬ (8 : ℤ) < milleScale q), power_map_neg hms]
    rfl

/-- Witness for C7's amended claim: the general in-dictionary conjunct
applied at 1230 (scale 1, suffix `K`), its hypotheses discharged
concretely. -/
theorem kmgt_labels_amended_witness :
    ((1230 : ℚ) ≠ 0 ∧ 0 ≤ milleScale (1230 : ℚ) ∧ milleScale (1230 : ℚ) ≤ 8) ∧
    ∃ sfx, power_map (milleScale (1230 : ℚ)) = some sfx ∧
      sfx ∈ ["", "K", "M", "G", "T", "P", "E", "Z", "Y"] ∧
      label_one "" "" (1230 : ℚ)
        = some ("" ++ fmt3g ((1230 : ℚ) / (10 : ℚ) ^ (3 * milleScale (1230 : ℚ))) ++ sfx ++ "") ∧
      decSigDigits (fmt3gChars ((1230 : ℚ) / (10 : ℚ) ^ (3 * milleScale (1230 : ℚ)))) ≤ 3 :=
  ⟨⟨by norm_num, by rw [milleScale_1230]; decide, by rw [milleScale_1230]; decide⟩,
    kmgt_labels_amended.2.2.2.1 1230 "" "" (by norm_num)
      (by rw [milleScale_1230]; decide) (by rw [milleScale_1230]; decide)⟩
